import Mathlib

/-!
Verification of the gap-buffer sequence container (src/gapbuffer.py).

The buffer stores a homogeneous sequence in a flat backing array `buf`
split around a relocatable gap `[gap_start, gap_end)`; `content_end`
bounds the real content, `[content_end, buf.length)` is unused reserve.

The embedding below mirrors the Python source:
* `buf` (the `array.array`) becomes a `List α`; its length is the capacity.
* Python ints are `Int`; physical indices convert through `pyIdx`, which
  reproduces Python's negative-index wraparound on the backing array.
* Dynamically-typed incoming values become `PyVal α`: `ok a` is a value of
  the buffer's element type, `bad` is any value of another type (whose
  write raises TypeError in `array.array`).
* Raising an exception is modelled with `Except`; mutating operations
  return `Except (Err × GapState α) (GapState α)` where the error also
  carries the state at the moment the exception escapes (Python objects
  keep any partial mutation done before the raise).
-/

namespace GapBuffer

/-- A dynamically-typed Python value presented to the buffer: either a value
of the buffer's element type, or a value of some other type (writing it into
the `array.array` raises TypeError). -/
inductive PyVal (α : Type) where
  | ok (a : α)
  | bad
  deriving DecidableEq, Repr

/-- The error kinds raised by the source: IndexError, ValueError (length
mismatch / not-found), TypeError (element of the wrong type). -/
inductive Err where
  | indexError
  | valueError
  | typeError
  deriving DecidableEq, Repr

/-- State of a `gapbuffer` object: the backing `array.array` (`buf`, whose
length is the capacity), the three offsets `gap_start`, `gap_end`,
`content_end`, the configured minimum gap size `gap_size`, and the
type-dependent fill item used to allocate fresh gap space
(`gapbuffer.TYPE_CODES[typecode][0]`). -/
structure GapState (α : Type) where
  buf : List α
  gap_start : Nat
  gap_end : Nat
  content_end : Nat
  gap_size : Nat
  fill : α
  deriving DecidableEq, Repr

variable {α : Type}

/-- `__gap_len`: length of the gap. -/
def gapLen (s : GapState α) : Nat := s.gap_end - s.gap_start

/-- `__len__`: logical length of the buffer. -/
def gbLength (s : GapState α) : Nat := s.content_end - gapLen s

/-- Logical content of the buffer: everything left of the gap followed by
everything between the gap and `content_end`. -/
def content (s : GapState α) : List α :=
  s.buf.take s.gap_start ++ (s.buf.take s.content_end).drop s.gap_end

/-- The offset-ordering invariant `0 ≤ gap_start ≤ gap_end ≤ content_end ≤
capacity` (the `0 ≤` part is implicit in `Nat`). -/
def WF (s : GapState α) : Prop :=
  s.gap_start ≤ s.gap_end ∧ s.gap_end ≤ s.content_end ∧ s.content_end ≤ s.buf.length

instance (s : GapState α) : Decidable (WF s) := by
  unfold WF; exact inferInstance

/-- Python indexing into the backing array: a negative index counts from the
physical end of the array. -/
def pyIdx (l : List α) (i : Int) : Nat :=
  if i < 0 then ((l.length : Int) + i).toNat else i.toNat

/-- One iteration of the `__move_gap` left-moving loop body:
`gap_start -= 1; gap_end -= 1; buf[gap_end] = buf[gap_start]`, run `n`
times. -/
def moveLeftSteps (s : GapState α) : Nat → GapState α
  | 0 => s
  | n + 1 =>
      moveLeftSteps
        { s with
          gap_start := s.gap_start - 1
          gap_end := s.gap_end - 1
          buf := s.buf.set (s.gap_end - 1) (s.buf.getD (s.gap_start - 1) s.fill) } n

/-- One iteration of the `__move_gap` right-moving loop body:
`buf[gap_start] = buf[gap_end]; gap_start += 1; gap_end += 1`, run `n`
times. -/
def moveRightSteps (s : GapState α) : Nat → GapState α
  | 0 => s
  | n + 1 =>
      moveRightSteps
        { s with
          buf := s.buf.set s.gap_start (s.buf.getD s.gap_end s.fill)
          gap_start := s.gap_start + 1
          gap_end := s.gap_end + 1 } n

/-- `__move_gap(index)`: no-op on an empty buffer; otherwise normalize a
negative index, then either update the pointers of a zero-length gap
directly or slide the gap one slot at a time.  The two while loops run
exactly `gap_start - index` (resp. `index - gap_start`) times, which is the
step count used here.  The source's `assert 0 <= index <= len(self)` holds
at every call site the claims exercise. -/
def move_gap (s : GapState α) (index : Int) : GapState α :=
  if gbLength s = 0 then s
  else
    let index : Int := if index < 0 then (gbLength s : Int) + index else index
    let i : Nat := index.toNat
    if gapLen s = 0 then { s with gap_start := i, gap_end := i }
    else if i < s.gap_start then moveLeftSteps s (s.gap_start - i)
    else moveRightSteps s (i - s.gap_start)

/-- `__resize_buf(target_size)` with the default `factor = 1.0/16`: repeat
`buf.extend(item for i in xrange(max(1, int((1.0 + factor) * (1 + len(buf))))))`
until the capacity reaches `target_size`.  For every capacity the program
can reach (far below 2^48), the float expression
`int((1.0 + 1.0/16) * (1 + len))` is computed exactly and equals
`17 * (1 + len) / 16` in integer arithmetic, which is used here. -/
def resize_buf (s : GapState α) (target_size : Nat) : GapState α :=
  if h : s.buf.length < target_size then
    resize_buf
      { s with
        buf := s.buf ++ List.replicate (max 1 (17 * (1 + s.buf.length) / 16)) s.fill }
      target_size
  else s
termination_by target_size - s.buf.length
decreasing_by
  simp only [List.length_append, List.length_replicate]
  have h1 : 1 ≤ max 1 (17 * (1 + s.buf.length) / 16) := le_max_left _ _
  omega

/-- The `__resize_gap` shift loop
`for i in reversed(xrange(ge, ge + n)): buf[i + delta] = buf[i]`,
modelled by recursion on the iteration count `n` (the first iteration
touches the highest index `ge + n - 1`). -/
def shiftLoop (buf : List α) (fill : α) (delta ge : Nat) : Nat → List α
  | 0 => buf
  | n + 1 => shiftLoop (buf.set (ge + n + delta) (buf.getD (ge + n) fill)) fill delta ge n

/-- `__resize_gap(target_size)`: when the gap is too small, grow the backing
store by `gap_delta = target_size + gap_size - gap_len`, shift the right
content block up by `gap_delta` (back to front), and advance `gap_end` and
`content_end`. -/
def resize_gap (s : GapState α) (target_size : Nat) : GapState α :=
  if gapLen s < target_size then
    let gap_delta := target_size + s.gap_size - gapLen s
    let s1 := resize_buf s (s.buf.length + gap_delta)
    let s2 := { s1 with
      buf := shiftLoop s1.buf s1.fill gap_delta s1.gap_end (s1.content_end - s1.gap_end) }
    { s2 with gap_end := s2.gap_end + gap_delta, content_end := s2.content_end + gap_delta }
  else s

/-- A Python slice object `slice(start, stop, step)`; `none` is Python's
`None`. -/
structure PySlice where
  start : Option Int
  stop : Option Int
  step : Option Int
  deriving DecidableEq, Repr

/-- `slice.indices(length)`: CPython's normalization of slice bounds against
a sequence length (clamping into `[0, length]` for a positive step and into
`[-1, length-1]` for a negative step).  A step of `0` raises in Python and
is never produced by the claims; the value returned for it here is unused. -/
def sliceIndices (sl : PySlice) (length : Nat) : Int × Int × Int :=
  let n : Int := length
  let step : Int := sl.step.getD 1
  let lower : Int := if step < 0 then -1 else 0
  let upper : Int := if step < 0 then n - 1 else n
  let start : Int :=
    match sl.start with
    | none => if step < 0 then upper else lower
    | some i => if i < 0 then max (i + n) lower else min i upper
  let stop : Int :=
    match sl.stop with
    | none => if step < 0 then lower else upper
    | some i => if i < 0 then max (i + n) lower else min i upper
  (start, stop, step)

/-- Number of elements of `xrange(start, stop, step)` (`step ≠ 0`). -/
def rangeLen (start stop step : Int) : Nat :=
  if 0 < step then
    if start < stop then ((stop - start - 1) / step).toNat + 1 else 0
  else if step < 0 then
    if stop < start then ((start - stop - 1) / (-step)).toNat + 1 else 0
  else 0

/-- The elements `start, start + step, ...`, of a given count. -/
def rangeGo (start step : Int) : Nat → List Int
  | 0 => []
  | n + 1 => start :: rangeGo (start + step) step n

/-- The element list of `xrange(start, stop, step)` for `step ≠ 0`. -/
def rangeList (start stop step : Int) : List Int :=
  rangeGo start step (rangeLen start stop step)

/-- `__get_index(i)`: `__enforce_index`, then translate the (possibly still
negative) logical index past the gap and read the backing array. -/
def get_index (s : GapState α) (i : Int) : Except Err α :=
  if (gbLength s : Int) ≤ i ∨ i < -(gbLength s : Int) then .error .indexError
  else
    let index : Int := if i < (s.gap_start : Int) then i else i + (gapLen s : Int)
    .ok (s.buf.getD (pyIdx s.buf index) s.fill)

/-- `__set_index(i, value)`: `__enforce_index`, then write through the same
translation; a value of the wrong type raises TypeError from the array
assignment, leaving the state unchanged. -/
def set_index (s : GapState α) (i : Int) (v : PyVal α) :
    Except (Err × GapState α) (GapState α) :=
  if (gbLength s : Int) ≤ i ∨ i < -(gbLength s : Int) then .error (.indexError, s)
  else
    match v with
    | .bad => .error (.typeError, s)
    | .ok a =>
      let index : Int := if i < (s.gap_start : Int) then i else i + (gapLen s : Int)
      .ok { s with buf := s.buf.set (pyIdx s.buf index) a }

/-- The extended-slice assignment loop
`for i, v in izip(xr, values): self[i] = v`. -/
def setEach (s : GapState α) : List (Int × PyVal α) → Except (Err × GapState α) (GapState α)
  | [] => .ok s
  | (i, v) :: rest =>
    match set_index s i v with
    | .ok s1 => setEach s1 rest
    | .error e => .error e

/-- The step-1 slice-assignment write loop
`for v in values: buf[gap_start] = v; gap_start += 1`; a wrongly-typed value
raises TypeError from the array assignment, after the previous values have
already been written. -/
def writeLoop (s : GapState α) : List (PyVal α) → Except (GapState α) (GapState α)
  | [] => .ok s
  | v :: vs =>
    match v with
    | .ok a =>
        writeLoop { s with buf := s.buf.set s.gap_start a, gap_start := s.gap_start + 1 } vs
    | .bad => .error s

/-- `__set_slice(s, value)`: normalize the slice; for an extended slice
(step ≠ 1) enforce the length match and assign index by index; for step 1,
move the gap to `start`, resize it for the new values, fold the old slice
into the gap (`gap_end += stop - start`, always nonnegative because
`gap_end ≥ start` after the move), and write the values into the gap. -/
def set_slice (s : GapState α) (sl : PySlice) (values : List (PyVal α)) :
    Except (Err × GapState α) (GapState α) :=
  let t := sliceIndices sl (gbLength s)
  let start := t.1
  let stop := t.2.1
  let step := t.2.2
  if step ≠ 1 then
    let xr := rangeList start stop step
    if values.length ≠ xr.length then .error (.valueError, s)
    else setEach s (xr.zip values)
  else
    let s1 := move_gap s start
    let s2 := resize_gap s1 values.length
    let s3 := { s2 with gap_end := s2.gap_end + stop.toNat - start.toNat }
    match writeLoop s3 values with
    | .ok s4 => .ok s4
    | .error s4 => .error (.typeError, s4)

/-- `__del_index(i)`: `__enforce_index`, move the gap to the index (the move
itself normalizes a negative index), and let the gap consume the slot. -/
def del_index (s : GapState α) (i : Int) : Except (Err × GapState α) (GapState α) :=
  if (gbLength s : Int) ≤ i ∨ i < -(gbLength s : Int) then .error (.indexError, s)
  else
    let s1 := move_gap s i
    .ok { s1 with gap_end := s1.gap_end + 1 }

/-- The extended-slice deletion loop
`for count, index in enumerate(xr): del self[index - count]`. -/
def delEach (s : GapState α) : List Int → Nat → Except (Err × GapState α) (GapState α)
  | [], _ => .ok s
  | i :: rest, count =>
    match del_index s (i - count) with
    | .ok s1 => delEach s1 rest (count + 1)
    | .error e => .error e

/-- `__del_slice(s)`: normalize; for an extended slice delete the addressed
indices one at a time in slice order, compensating by the count already
deleted; for step 1 with a nonempty range, move the gap to `start` and
advance `gap_end` over the range. -/
def del_slice (s : GapState α) (sl : PySlice) : Except (Err × GapState α) (GapState α) :=
  let t := sliceIndices sl (gbLength s)
  let start := t.1
  let stop := t.2.1
  let step := t.2.2
  let xr := rangeList start stop step
  if step ≠ 1 then delEach s xr 0
  else if 0 < xr.length then
    let s1 := move_gap s start
    .ok { s1 with gap_end := s1.gap_end + xr.length }
  else .ok s

/-- `__enter__`: move the gap to the end of the content and truncate the
backing array at `gap_start` (the pointers are left stale until
`__exit__`). -/
def ctx_enter (s : GapState α) : GapState α :=
  let s1 := move_gap s (gbLength s : Int)
  { s1 with buf := s1.buf.take s1.gap_start }

/-- `__exit__`: append a fresh gap of `gap_size` fill items at the end of
the backing array and re-point `gap_start`, `gap_end`, `content_end`. -/
def ctx_exit (s : GapState α) : GapState α :=
  let buf2 := s.buf ++ List.replicate s.gap_size s.fill
  { s with
    buf := buf2
    content_end := buf2.length
    gap_start := buf2.length - s.gap_size
    gap_end := buf2.length }

/-- Split a value sequence at its first wrongly-typed element: the items
`array.extend` appends before raising TypeError, and whether it raises. -/
def goodPrefix : List (PyVal α) → List α × Bool
  | [] => ([], false)
  | .ok a :: rest =>
      match goodPrefix rest with
      | (g, b) => (a :: g, b)
  | .bad :: _ => ([], true)

/-- `extend(other)`: enter the context (gap collapsed to the end), append
the items one at a time as `array.extend` does — a wrongly-typed item
raises after the previous items were appended — and run `__exit__`
unconditionally (the `with` statement runs it on the exception path too). -/
def extendOp (s : GapState α) (values : List (PyVal α)) :
    Except (Err × GapState α) (GapState α) :=
  let t := ctx_enter s
  match goodPrefix values with
  | (g, b) =>
    let t2 := { t with buf := t.buf ++ g }
    let r := ctx_exit t2
    if b then .error (.typeError, r) else .ok r

/-- `extend` with an iterable of well-typed values (no exception path). -/
def extendGood (s : GapState α) (values : List α) : GapState α :=
  let t := ctx_enter s
  ctx_exit { t with buf := t.buf ++ values }

/-- `self.extend(self)`, as executed by `__imul__`: inside the context the
backing array holds exactly the logical content, and iterating `self`
during `array.extend` yields that content once (the logical length
`content_end - gap_len` is not changed by the appends, and the items below
`gap_start` are not touched), so the array is appended to itself. -/
def extend_self (s : GapState α) : GapState α :=
  let t := ctx_enter s
  ctx_exit { t with buf := t.buf ++ t.buf }

/-- `insert(index, item)` is `self[index:index] = [item]`. -/
def insert (s : GapState α) (index : Int) (item : PyVal α) :
    Except (Err × GapState α) (GapState α) :=
  set_slice s ⟨some index, some index, none⟩ [item]

/-- `__mul__(n)`: build a fresh buffer (default `gap_size = 100`) and extend
it with this buffer's content `n` times (not at all if `n ≤ 0`).  Iterating
`self` yields `content s` each time. -/
def mulGo (s : GapState α) (acc : GapState α) : Nat → GapState α
  | 0 => acc
  | n + 1 => mulGo s (extendGood acc (content s)) n

/-- The fresh buffer `gapbuffer(self.typecode)` that `__mul__` starts from. -/
def emptyBuffer (fill : α) : GapState α :=
  { buf := List.replicate 100 fill
    gap_start := 0
    gap_end := 100
    content_end := 100
    gap_size := 100
    fill := fill }

/-- `__mul__(n)`. -/
def mul (s : GapState α) (n : Int) : GapState α :=
  if 0 < n then mulGo s (emptyBuffer s.fill) n.toNat else emptyBuffer s.fill

/-- The `__imul__` loop `for i in xrange(n - 1): self.extend(self)`. -/
def extendSelfIter (s : GapState α) : Nat → GapState α
  | 0 => s
  | n + 1 => extendSelfIter (extend_self s) n

/-- `__imul__(n)`: clear the buffer if `n ≤ 0`, otherwise extend the buffer
with itself `n - 1` times. -/
def imul (s : GapState α) (n : Int) : Except (Err × GapState α) (GapState α) :=
  if n ≤ 0 then del_slice s ⟨none, none, none⟩
  else .ok (extendSelfIter s (n - 1).toNat)

/-- `__init__(typecode, initial_content, gap_size)` for well-typed content:
allocate `gap_size` fill items as the initial gap, append the content, and
set `content_end` to the backing length. -/
def init (fill : α) (initial_content : List α) (gap_size : Nat) : GapState α :=
  { buf := List.replicate gap_size fill ++ initial_content
    gap_start := 0
    gap_end := gap_size
    content_end := gap_size + initial_content.length
    gap_size := gap_size
    fill := fill }

/-- `__init__` on dynamically-typed content: `array.extend` raises TypeError
at the first wrongly-typed item, the constructor re-raises, and no object is
produced. -/
def initBuf (fill : α) (initial_content : List (PyVal α)) (gap_size : Nat) :
    Except Err (GapState α) :=
  match goodPrefix initial_content with
  | (_, true) => .error .typeError
  | (g, false) => .ok (init fill g gap_size)

/-- An iterable handed to `__compare`/`__eq__`: either it exposes `__len__`
(modelled by the list of its elements) or it does not (a generator or other
unsized object, whose elements the source refuses to consume). -/
inductive PyIterable (α : Type) where
  | sized (l : List α)
  | unsized
  deriving Repr

/-- The `izip_longest` comparison loop of `__compare`: the exhausted side is
smaller; otherwise the first unequal pair decides. -/
def pyCompare [LinearOrder α] : List α → List α → Int
  | [], [] => 0
  | [], _ :: _ => -1
  | _ :: _, [] => 1
  | a :: l, b :: o => if b > a then -1 else if b < a then 1 else pyCompare l o

/-- `__compare(other)`: anything without `__len__` compares as smaller than
the buffer (return 1) without consuming it; otherwise compare
lexicographically. -/
def gb_compare [LinearOrder α] (s : GapState α) (other : PyIterable α) : Int :=
  match other with
  | .unsized => 1
  | .sized o => pyCompare (content s) o

/-- `__eq__(other)`: a length mismatch with a sized iterable is an early
False; otherwise equality is `__compare == 0`. -/
def gb_eq [LinearOrder α] (s : GapState α) (other : PyIterable α) : Bool :=
  match other with
  | .sized o => if o.length ≠ gbLength s then false else pyCompare (content s) o == 0
  | .unsized => gb_compare s other == 0

/-- Projection of a mutation result onto the success state. -/
def okState : Except (Err × GapState α) (GapState α) → Option (GapState α)
  | .ok t => some t
  | .error _ => none

/-- Fold of in-place element writes over a list: the logical effect of the
extended-slice assignment loop on the buffer's content. -/
def applyWrites : List α → List Nat → List α → List α
  | l, [], _ => l
  | l, i :: is, vs =>
    match vs with
    | [] => l
    | v :: vs => applyWrites (l.set i v) is vs

/-- Clamp of a Python index into `[0, length]`, as `slice.indices` does for
a step-1 slice bound. -/
def clampN (i : Int) (n : Nat) : Nat :=
  (if i < 0 then max (i + n) 0 else min i n).toNat

/-- Projection of a mutation result onto the error kind and the logical
content of the state the exception left behind. -/
def errContent : Except (Err × GapState α) (GapState α) → Option (Err × List α)
  | .error (e, t) => some (e, content t)
  | .ok _ => none

/-! ### Basic facts about the data model -/

theorem content_length (s : GapState α) (h : WF s) : (content s).length = gbLength s := by
  obtain ⟨h1, h2, h3⟩ := h
  simp only [content, gbLength, gapLen, List.length_append, List.length_take,
    List.length_drop]
  omega

theorem WF_init (fill : α) (l : List α) (g : Nat) : WF (init fill l g) := by
  refine ⟨?_, ?_, ?_⟩ <;> simp [init] <;> omega

theorem content_init (fill : α) (l : List α) (g : Nat) : content (init fill l g) = l := by
  unfold content init
  simp only [List.take_zero, List.nil_append]
  rw [List.take_of_length_le (by simp), List.drop_left' (by simp)]

theorem gbLength_init (fill : α) (l : List α) (g : Nat) :
    gbLength (init fill l g) = l.length := by
  simp [gbLength, gapLen, init]

/-! ### Gap movement preserves the logical content -/

theorem moveLeftSteps_spec (n : Nat) (s : GapState α) (hWF : WF s)
    (hgap : s.gap_start < s.gap_end) (hn : n ≤ s.gap_start) :
    (moveLeftSteps s n).buf.length = s.buf.length ∧
    (moveLeftSteps s n).gap_start = s.gap_start - n ∧
    (moveLeftSteps s n).gap_end = s.gap_end - n ∧
    (moveLeftSteps s n).content_end = s.content_end ∧
    (moveLeftSteps s n).gap_size = s.gap_size ∧
    (moveLeftSteps s n).fill = s.fill ∧
    content (moveLeftSteps s n) = content s := by
  induction n generalizing s with
  | zero => simp [moveLeftSteps]
  | succ n ih =>
    obtain ⟨h1, h2, h3⟩ := hWF
    have hgs : 1 ≤ s.gap_start := by omega
    have hgslen : s.gap_start - 1 < s.buf.length := by omega
    set x := s.buf.getD (s.gap_start - 1) s.fill with hx
    set s1 : GapState α :=
      { s with
        gap_start := s.gap_start - 1
        gap_end := s.gap_end - 1
        buf := s.buf.set (s.gap_end - 1) x } with hs1
    have hstep : moveLeftSteps s (n + 1) = moveLeftSteps s1 n := by
      simp [moveLeftSteps, hs1, hx]
    have hWF1 : WF s1 := by
      refine ⟨?_, ?_, ?_⟩ <;> simp [hs1] <;> omega
    have hcontent1 : content s1 = content s := by
      have hxval : x = s.buf[s.gap_start - 1] := List.getD_eq_getElem s.buf s.fill hgslen
      unfold content
      simp only [hs1]
      rw [List.set_take, List.set_eq_of_length_le (by simp; omega)]
      rw [List.set_take, List.drop_set]
      rw [if_neg (by omega)]
      have hge1 : s.gap_end - 1 < (s.buf.take s.content_end).length := by
        simp; omega
      rw [Nat.sub_self, List.drop_eq_getElem_cons hge1, List.set_cons_zero]
      have htk : s.buf.take s.gap_start = s.buf.take (s.gap_start - 1) ++ [x] := by
        have : s.gap_start = (s.gap_start - 1) + 1 := by omega
        rw [this, List.take_succ]
        have : s.buf[s.gap_start - 1]? = some x := by
          rw [List.getElem?_eq_getElem hgslen, hxval]
        rw [this]
        rfl
      have hdrop : (s.buf.take s.content_end).drop (s.gap_end - 1 + 1) =
          (s.buf.take s.content_end).drop s.gap_end := by
        congr 1
        omega
      rw [hdrop, htk]
      simp
    obtain ⟨i1, i2, i3, i4, i5, i6, i7⟩ :=
      ih s1 hWF1 (by simp [hs1]; omega) (by simp [hs1]; omega)
    rw [hstep]
    refine ⟨?_, ?_, ?_, ?_, ?_, ?_, ?_⟩ <;>
      simp [i1, i2, i3, i4, i5, i6, i7, hs1, hcontent1] <;> omega

theorem moveRightSteps_spec (n : Nat) (s : GapState α) (hWF : WF s)
    (hgap : s.gap_start < s.gap_end) (hn : s.gap_end + n ≤ s.content_end) :
    (moveRightSteps s n).buf.length = s.buf.length ∧
    (moveRightSteps s n).gap_start = s.gap_start + n ∧
    (moveRightSteps s n).gap_end = s.gap_end + n ∧
    (moveRightSteps s n).content_end = s.content_end ∧
    (moveRightSteps s n).gap_size = s.gap_size ∧
    (moveRightSteps s n).fill = s.fill ∧
    content (moveRightSteps s n) = content s := by
  induction n generalizing s with
  | zero => simp [moveRightSteps]
  | succ n ih =>
    obtain ⟨h1, h2, h3⟩ := hWF
    have hgelen : s.gap_end < s.buf.length := by omega
    set x := s.buf.getD s.gap_end s.fill with hx
    set s1 : GapState α :=
      { s with
        buf := s.buf.set s.gap_start x
        gap_start := s.gap_start + 1
        gap_end := s.gap_end + 1 } with hs1
    have hstep : moveRightSteps s (n + 1) = moveRightSteps s1 n := by
      simp [moveRightSteps, hs1, hx]
    have hWF1 : WF s1 := by
      refine ⟨?_, ?_, ?_⟩ <;> simp [hs1] <;> omega
    have hcontent1 : content s1 = content s := by
      have hxval : x = s.buf[s.gap_end] := List.getD_eq_getElem s.buf s.fill hgelen
      unfold content
      simp only [hs1]
      rw [List.set_take, List.set_take, List.drop_set, if_pos (by omega)]
      have htk : (s.buf.take (s.gap_start + 1)).set s.gap_start x =
          s.buf.take s.gap_start ++ [x] := by
        rw [List.take_succ, List.getElem?_eq_getElem (show s.gap_start < s.buf.length by omega),
          Option.toList_some]
        rw [List.set_append_right _ _ (by simp only [List.length_take]; omega)]
        have hz : s.gap_start - (s.buf.take s.gap_start).length = 0 := by
          simp only [List.length_take]
          omega
        rw [hz]
        rfl
      have hdr : (s.buf.take s.content_end).drop s.gap_end =
          x :: (s.buf.take s.content_end).drop (s.gap_end + 1) := by
        rw [List.drop_eq_getElem_cons (by simp only [List.length_take]; omega)]
        congr 1
        rw [hxval]
        exact List.getElem_take _
      rw [htk, hdr]
      simp
    obtain ⟨i1, i2, i3, i4, i5, i6, i7⟩ :=
      ih s1 hWF1 (by simp [hs1]; omega) (by simp [hs1]; omega)
    rw [hstep]
    refine ⟨?_, ?_, ?_, ?_, ?_, ?_, ?_⟩ <;>
      simp [i1, i2, i3, i4, i5, i6, i7, hs1, hcontent1] <;> omega

theorem move_gap_spec (s : GapState α) (hWF : WF s) (i : Nat) (hi : i ≤ gbLength s) :
    (move_gap s (i : Int)).buf.length = s.buf.length ∧
    (move_gap s (i : Int)).gap_start = i ∧
    gapLen (move_gap s (i : Int)) = gapLen s ∧
    (move_gap s (i : Int)).content_end = s.content_end ∧
    (move_gap s (i : Int)).gap_size = s.gap_size ∧
    (move_gap s (i : Int)).fill = s.fill ∧
    WF (move_gap s (i : Int)) ∧
    content (move_gap s (i : Int)) = content s := by
  obtain ⟨h1, h2, h3⟩ := hWF
  have hlen : gbLength s = s.content_end - (s.gap_end - s.gap_start) := rfl
  unfold move_gap
  by_cases h0 : gbLength s = 0
  · -- empty buffer: no-op, and WF forces gap_start = 0 = i
    have hgs : s.gap_start = 0 := by
      simp only [gbLength, gapLen] at h0
      omega
    have hi0 : i = 0 := by omega
    simp [h0, hi0, hgs, gapLen, WF, h1, h2, h3]
  · rw [if_neg h0]
    have hnneg : ¬ ((i : Int) < 0) := by omega
    rw [if_neg hnneg]
    simp only [Int.toNat_natCast]
    by_cases hg0 : gapLen s = 0
    · -- zero-length gap: pure pointer update
      rw [if_pos hg0]
      have hge : s.gap_end = s.gap_start := by
        simp only [gapLen] at hg0
        omega
      have hice : i ≤ s.content_end := by
        simp only [gbLength, gapLen] at hi
        omega
      refine ⟨rfl, rfl, by simp only [gapLen] at hg0 ⊢; omega, rfl, rfl, rfl,
        ⟨le_refl i, hice, h3⟩, ?_⟩
      unfold content
      simp only
      rw [hge]
      have key : ∀ j : Nat, j ≤ s.content_end →
          s.buf.take j ++ (s.buf.take s.content_end).drop j = s.buf.take s.content_end := by
        intro j hj
        have hjj : s.buf.take j = (s.buf.take s.content_end).take j := by
          rw [List.take_take, Nat.min_eq_left hj]
        rw [hjj, List.take_append_drop]
      rw [key i hice, key s.gap_start (by omega)]
    · rw [if_neg hg0]
      have hgap : s.gap_start < s.gap_end := by
        simp only [gapLen] at hg0
        omega
      by_cases hlt : i < s.gap_start
      · rw [if_pos hlt]
        obtain ⟨i1, i2, i3, i4, i5, i6, i7⟩ :=
          moveLeftSteps_spec (s.gap_start - i) s ⟨h1, h2, h3⟩ hgap (by omega)
        refine ⟨i1, by omega, ?_, i4, i5, i6, ?_, i7⟩
        · simp only [gapLen, i2, i3]
          omega
        · refine ⟨?_, ?_, ?_⟩ <;> simp only [i1, i2, i3, i4] <;> omega
      · rw [if_neg hlt]
        obtain ⟨i1, i2, i3, i4, i5, i6, i7⟩ :=
          moveRightSteps_spec (i - s.gap_start) s ⟨h1, h2, h3⟩ hgap
            (by simp only [gbLength, gapLen] at hi; omega)
        refine ⟨i1, by omega, ?_, i4, i5, i6, ?_, i7⟩
        · simp only [gapLen, i2, i3]
          omega
        · refine ⟨?_, ?_, ?_⟩ <;> simp only [i1, i2, i3, i4] <;>
            simp only [gbLength, gapLen] at hi <;> omega

/-! ### Backing-store growth and gap resizing -/

theorem resize_buf_fuel (fuel : Nat) (s : GapState α) (target : Nat)
    (hf : target - s.buf.length ≤ fuel) :
    ∃ k, (resize_buf s target).buf = s.buf ++ List.replicate k s.fill ∧
    target ≤ (resize_buf s target).buf.length ∧
    (resize_buf s target).gap_start = s.gap_start ∧
    (resize_buf s target).gap_end = s.gap_end ∧
    (resize_buf s target).content_end = s.content_end ∧
    (resize_buf s target).gap_size = s.gap_size ∧
    (resize_buf s target).fill = s.fill := by
  induction fuel generalizing s with
  | zero =>
    have hle : target ≤ s.buf.length := by omega
    rw [resize_buf, dif_neg (by omega)]
    exact ⟨0, by simp, hle, rfl, rfl, rfl, rfl, rfl⟩
  | succ fuel ih =>
    by_cases h : s.buf.length < target
    · rw [resize_buf, dif_pos h]
      set E := max 1 (17 * (1 + s.buf.length) / 16) with hE
      have hE1 : 1 ≤ E := le_max_left _ _
      set s1 : GapState α := { s with buf := s.buf ++ List.replicate E s.fill } with hs1
      have hlen1 : s1.buf.length = s.buf.length + E := by simp [hs1]
      obtain ⟨k, b1, b2, b3, b4, b5, b6, b7⟩ := ih s1 (by omega)
      refine ⟨E + k, ?_, b2, b3, b4, b5, b6, by rw [b7]⟩
      rw [b1]
      simp only [hs1]
      rw [List.append_assoc, ← List.replicate_add]
    · rw [resize_buf, dif_neg h]
      exact ⟨0, by simp, by omega, rfl, rfl, rfl, rfl, rfl⟩

theorem resize_buf_spec (s : GapState α) (target : Nat) :
    ∃ k, (resize_buf s target).buf = s.buf ++ List.replicate k s.fill ∧
    target ≤ (resize_buf s target).buf.length ∧
    (resize_buf s target).gap_start = s.gap_start ∧
    (resize_buf s target).gap_end = s.gap_end ∧
    (resize_buf s target).content_end = s.content_end ∧
    (resize_buf s target).gap_size = s.gap_size ∧
    (resize_buf s target).fill = s.fill :=
  resize_buf_fuel target s target (by omega)

theorem shiftLoop_spec (fill : α) (delta ge : Nat) (hd : 1 ≤ delta) :
    ∀ (n : Nat) (buf : List α), ge + n + delta ≤ buf.length →
    shiftLoop buf fill delta ge n =
      buf.take (ge + delta) ++ (buf.drop ge).take n ++ buf.drop (ge + delta + n) := by
  intro n
  induction n with
  | zero =>
    intro buf h
    simp only [shiftLoop, List.take_zero, List.append_nil, Nat.add_zero]
    rw [List.take_append_drop]
  | succ n ih =>
    intro buf h
    have hlt : ge + n + delta < buf.length := by omega
    have hlt2 : ge + n < buf.length := by omega
    set x := buf.getD (ge + n) fill with hx
    have hxval : x = buf[ge + n] := List.getD_eq_getElem buf fill hlt2
    show shiftLoop (buf.set (ge + n + delta) x) fill delta ge n = _
    rw [ih (buf.set (ge + n + delta) x) (by simp; omega)]
    have p1 : (buf.set (ge + n + delta) x).take (ge + delta) = buf.take (ge + delta) := by
      rw [List.set_take, List.set_eq_of_length_le (by simp only [List.length_take]; omega)]
    have p2 : ((buf.set (ge + n + delta) x).drop ge).take n = (buf.drop ge).take n := by
      rw [List.drop_set, if_neg (by omega), List.set_take,
        List.set_eq_of_length_le (by simp only [List.length_take]; omega)]
    have p3 : (buf.set (ge + n + delta) x).drop (ge + delta + n) =
        x :: buf.drop (ge + delta + n + 1) := by
      rw [List.drop_set, if_neg (by omega)]
      have harr : ge + n + delta - (ge + delta + n) = 0 := by omega
      have harr2 : ge + delta + n < buf.length := by omega
      rw [harr, List.drop_eq_getElem_cons harr2, List.set_cons_zero]
    rw [p1, p2, p3]
    have p4 : (buf.drop ge).take (n + 1) = (buf.drop ge).take n ++ [x] := by
      rw [List.take_succ]
      have : (buf.drop ge)[n]? = some x := by
        rw [List.getElem?_drop, List.getElem?_eq_getElem hlt2, hxval]
      rw [this, Option.toList_some]
    rw [p4]
    have harr3 : ge + delta + (n + 1) = ge + delta + n + 1 := by omega
    rw [harr3]
    simp

theorem resize_gap_spec (s : GapState α) (hWF : WF s) (m : Nat) :
    (resize_gap s m).gap_start = s.gap_start ∧
    m ≤ gapLen (resize_gap s m) ∧
    (resize_gap s m).gap_size = s.gap_size ∧
    (resize_gap s m).fill = s.fill ∧
    WF (resize_gap s m) ∧
    gbLength (resize_gap s m) = gbLength s ∧
    content (resize_gap s m) = content s := by
  obtain ⟨h1, h2, h3⟩ := hWF
  unfold resize_gap
  by_cases h : gapLen s < m
  · rw [if_pos h]
    simp only []
    have hδ1 : 1 ≤ m + s.gap_size - gapLen s := by omega
    set δ := m + s.gap_size - gapLen s with hδ
    obtain ⟨k, b1, b2, b3, b4, b5, b6, b7⟩ := resize_buf_spec s (s.buf.length + δ)
    set s1 := resize_buf s (s.buf.length + δ) with hs1
    set n := s1.content_end - s1.gap_end with hn
    have hn' : n = s.content_end - s.gap_end := by rw [hn, b4, b5]
    have hlen1 : s1.buf.length = s.buf.length + k := by rw [b1]; simp
    have hcond : s1.gap_end + n + δ ≤ s1.buf.length := by
      rw [b4, hn', hlen1]
      omega
    rw [shiftLoop_spec s1.fill δ s1.gap_end hδ1 n s1.buf hcond]
    set A := s1.buf.take (s1.gap_end + δ) with hA
    set B := (s1.buf.drop s1.gap_end).take n with hB
    set C := s1.buf.drop (s1.gap_end + δ + n) with hC
    have hAlen : A.length = s1.gap_end + δ := by
      rw [hA]
      simp only [List.length_take]
      rw [b4]
      omega
    have hBlen : B.length = n := by
      rw [hB]
      simp only [List.length_take, List.length_drop]
      rw [b4]
      omega
    have hgl : gapLen s = s.gap_end - s.gap_start := rfl
    refine ⟨b3, ?_, b6, b7, ?_, ?_, ?_⟩
    · simp only [gapLen, b3, b4]
      omega
    · refine ⟨?_, ?_, ?_⟩ <;>
        simp only [b3, b4, b5, List.length_append, hAlen, hBlen, List.length_drop, hC,
          hlen1] <;> omega
    · simp only [gbLength, gapLen, b3, b4, b5]
      omega
    · -- content is preserved through the shift
      unfold content
      simp only
      have left : (A ++ B ++ C).take s.gap_start = s.buf.take s.gap_start := by
        rw [List.take_append_of_le_length (by rw [List.length_append, hAlen]; omega)]
        rw [List.take_append_of_le_length (by rw [hAlen]; omega)]
        rw [hA, List.take_take, Nat.min_eq_left (by rw [b4]; omega)]
        rw [b1, List.take_append_of_le_length (by omega)]
      have mid : ((A ++ B ++ C).take (s.content_end + δ)).drop (s.gap_end + δ) =
          (s.buf.take s.content_end).drop s.gap_end := by
        have hAB : (A ++ B).length = s.content_end + δ := by
          rw [List.length_append, hAlen, hBlen, b4]
          omega
        rw [List.take_append_of_le_length (by rw [hAB])]
        rw [List.take_of_length_le (by rw [hAB])]
        rw [List.drop_left' (by rw [hAlen, b4])]
        rw [hB, List.take_drop, b4]
        have : s.gap_end + n = s.content_end := by omega
        rw [this, b1, List.take_append_of_le_length (by omega)]
      rw [b3, b4, b5, left, mid]
  · rw [if_neg h]
    exact ⟨rfl, by omega, rfl, rfl, ⟨h1, h2, h3⟩, rfl, rfl⟩

/-! ### The step-1 slice-assignment write loop -/

theorem content_take_gap_start (s : GapState α) (hWF : WF s) :
    (content s).take s.gap_start = s.buf.take s.gap_start := by
  obtain ⟨h1, h2, h3⟩ := hWF
  unfold content
  rw [List.take_append_of_le_length (by simp only [List.length_take]; omega)]
  rw [List.take_take, Nat.min_self]

theorem content_drop_gap_start (s : GapState α) (hWF : WF s) :
    (content s).drop s.gap_start = (s.buf.take s.content_end).drop s.gap_end := by
  obtain ⟨h1, h2, h3⟩ := hWF
  unfold content
  rw [List.drop_left' (by simp only [List.length_take]; omega)]

theorem writeLoop_prefix (goods : List α) :
    ∀ (s : GapState α) (rest : List (PyVal α)), WF s →
    s.gap_start + goods.length ≤ s.gap_end →
    ∃ t, writeLoop s (goods.map .ok ++ rest) = writeLoop t rest ∧
      t.gap_start = s.gap_start + goods.length ∧
      t.gap_end = s.gap_end ∧
      t.content_end = s.content_end ∧
      t.buf.length = s.buf.length ∧
      t.gap_size = s.gap_size ∧
      t.fill = s.fill ∧
      t.buf.take t.gap_start = s.buf.take s.gap_start ++ goods ∧
      (t.buf.take t.content_end).drop t.gap_end = (s.buf.take s.content_end).drop s.gap_end ∧
      WF t := by
  induction goods with
  | nil =>
    intro s rest hWF _
    exact ⟨s, by simp, by simp, rfl, rfl, rfl, rfl, rfl, by simp, rfl, hWF⟩
  | cons a goods ih =>
    intro s rest hWF hle
    obtain ⟨h1, h2, h3⟩ := hWF
    have hgs : s.gap_start < s.buf.length := by
      simp only [List.length_cons] at hle
      omega
    set s1 : GapState α :=
      { s with buf := s.buf.set s.gap_start a, gap_start := s.gap_start + 1 } with hs1
    have hstep : writeLoop s ((a :: goods).map .ok ++ rest) =
        writeLoop s1 (goods.map .ok ++ rest) := by
      simp [writeLoop, hs1]
    have hWF1 : WF s1 := by
      refine ⟨?_, ?_, ?_⟩ <;> simp only [hs1, List.length_set] <;>
        simp only [List.length_cons] at hle <;> omega
    obtain ⟨t, i0, i1, i2, i3, i4, i5, i6, i7, i8, i9⟩ :=
      ih s1 rest hWF1 (by simp only [hs1, List.length_cons] at hle ⊢; omega)
    refine ⟨t, by rw [hstep, i0], ?_, i2, i3, by simp only [i4, hs1, List.length_set],
      i5, i6, ?_, ?_, i9⟩
    · simp only [i1, hs1, List.length_cons]
      omega
    · rw [i7]
      simp only [hs1]
      have htk : (s.buf.set s.gap_start a).take (s.gap_start + 1) =
          s.buf.take s.gap_start ++ [a] := by
        rw [List.set_take, List.take_succ,
          List.getElem?_eq_getElem hgs, Option.toList_some]
        rw [List.set_append_right _ _ (by simp only [List.length_take]; omega)]
        have hz : s.gap_start - (s.buf.take s.gap_start).length = 0 := by
          simp only [List.length_take]
          omega
        rw [hz]
        rfl
      rw [htk]
      simp
    · rw [i8]
      simp only [hs1]
      rw [List.set_take, List.drop_set, if_pos (by simp only [List.length_cons] at hle; omega)]

theorem writeLoop_ok (vals : List α) (s : GapState α) (hWF : WF s)
    (hle : s.gap_start + vals.length ≤ s.gap_end) :
    ∃ t, writeLoop s (vals.map .ok) = .ok t ∧
      content t = s.buf.take s.gap_start ++ vals ++
        (s.buf.take s.content_end).drop s.gap_end ∧
      WF t := by
  obtain ⟨t, i0, i1, i2, i3, i4, i5, i6, i7, i8, i9⟩ :=
    writeLoop_prefix vals s [] hWF hle
  rw [List.append_nil] at i0
  refine ⟨t, by rw [i0]; rfl, ?_, i9⟩
  unfold content
  rw [i7, i8, List.append_assoc]

theorem writeLoop_bad (goods : List α) (rest : List (PyVal α)) (s : GapState α)
    (hWF : WF s) (hle : s.gap_start + goods.length ≤ s.gap_end) :
    ∃ t, writeLoop s (goods.map .ok ++ .bad :: rest) = .error t ∧
      content t = s.buf.take s.gap_start ++ goods ++
        (s.buf.take s.content_end).drop s.gap_end ∧
      WF t := by
  obtain ⟨t, i0, i1, i2, i3, i4, i5, i6, i7, i8, i9⟩ :=
    writeLoop_prefix goods s (.bad :: rest) hWF hle
  refine ⟨t, by rw [i0]; rfl, ?_, i9⟩
  unfold content
  rw [i7, i8, List.append_assoc]

/-! ### The step-1 path of slice assignment -/

theorem set_slice_step1 (s : GapState α) (hWF : WF s) (sl : PySlice)
    (startN stopN : Nat)
    (hidx : sliceIndices sl (gbLength s) = ((startN : Int), (stopN : Int), 1))
    (hss : startN ≤ stopN) (hstop : stopN ≤ gbLength s) (values : List (PyVal α)) :
    ∃ s3, (set_slice s sl values =
        match writeLoop s3 values with
        | .ok s4 => .ok s4
        | .error s4 => .error (.typeError, s4)) ∧
      s3.gap_start = startN ∧
      s3.gap_start + values.length ≤ s3.gap_end ∧
      WF s3 ∧
      s3.buf.take s3.gap_start = (content s).take startN ∧
      (s3.buf.take s3.content_end).drop s3.gap_end = (content s).drop stopN := by
  have hstart : startN ≤ gbLength s := le_trans hss hstop
  obtain ⟨m1, m2, m3, m4, m5, m6, m7, m8⟩ := move_gap_spec s hWF startN hstart
  set s1 := move_gap s ((startN : Nat) : Int) with hs1
  have hlen1 : gbLength s1 = gbLength s := by
    simp only [gbLength, m3, m4]
  obtain ⟨r1, r2, r3, r4, r5, r6, r7⟩ := resize_gap_spec s1 m7 values.length
  set s2 := resize_gap s1 values.length with hs2
  obtain ⟨w1, w2, w3⟩ := r5
  set s3 : GapState α := { s2 with gap_end := s2.gap_end + stopN - startN } with hs3
  have hgs3 : s3.gap_start = startN := by
    simp only [hs3]
    rw [r1, m2]
  have hlen2 : gbLength s2 = gbLength s := by rw [r6, hlen1]
  have hglen2 : gbLength s2 = s2.content_end - (s2.gap_end - s2.gap_start) := rfl
  have hgap2 : values.length ≤ s2.gap_end - s2.gap_start := r2
  have hge3 : s3.gap_end = s2.gap_end + (stopN - startN) := by
    simp only [hs3]
    omega
  have hcap : s3.gap_start + values.length ≤ s3.gap_end := by
    simp only [hs3]
    rw [r1, m2]
    omega
  have hWF3 : WF s3 := by
    refine ⟨?_, ?_, ?_⟩ <;> simp only [hs3] <;> rw [r1, m2] at * <;> omega
  refine ⟨s3, ?_, hgs3, hcap, hWF3, ?_, ?_⟩
  · -- the call reduces to the step-1 branch ending in the write loop
    unfold set_slice
    rw [hidx]
    simp only [ne_eq, not_true_eq_false, if_false, ite_false, Int.toNat_natCast]
  · -- left of the gap: the first startN content items
    simp only [hs3]
    rw [r1, m2]
    have : s2.buf.take s2.gap_start = (content s2).take s2.gap_start :=
      (content_take_gap_start s2 ⟨w1, w2, w3⟩).symm
    rw [r1, m2] at this
    rw [this, r7, m8]
  · -- right of the gap: the content from stopN on
    simp only [hs3]
    have harr : s2.gap_end + stopN - startN = s2.gap_end + (stopN - startN) := by
      have := r1
      have := m2
      have : startN ≤ s2.gap_end := by
        rw [← m2, ← r1]
        omega
      omega
    rw [harr, ← List.drop_drop]
    have hright : (s2.buf.take s2.content_end).drop s2.gap_end =
        (content s2).drop s2.gap_start :=
      (content_drop_gap_start s2 ⟨w1, w2, w3⟩).symm
    rw [hright, r7, m8, List.drop_drop, r1, m2]
    congr 1
    omega

theorem set_slice_step1_ok (s : GapState α) (hWF : WF s) (sl : PySlice)
    (startN stopN : Nat)
    (hidx : sliceIndices sl (gbLength s) = ((startN : Int), (stopN : Int), 1))
    (hss : startN ≤ stopN) (hstop : stopN ≤ gbLength s) (vals : List α) :
    ∃ t, set_slice s sl (vals.map .ok) = .ok t ∧
      content t = (content s).take startN ++ vals ++ (content s).drop stopN ∧
      WF t := by
  obtain ⟨s3, e0, e1, e2, e3, e4, e5⟩ :=
    set_slice_step1 s hWF sl startN stopN hidx hss hstop (vals.map .ok)
  rw [List.length_map] at e2
  obtain ⟨t, f0, f1, f2⟩ := writeLoop_ok vals s3 e3 e2
  refine ⟨t, ?_, ?_, f2⟩
  · rw [e0, f0]
  · rw [f1, e4, e5]

theorem set_slice_step1_bad (s : GapState α) (hWF : WF s) (sl : PySlice)
    (startN stopN : Nat)
    (hidx : sliceIndices sl (gbLength s) = ((startN : Int), (stopN : Int), 1))
    (hss : startN ≤ stopN) (hstop : stopN ≤ gbLength s) (goods : List α)
    (rest : List (PyVal α)) :
    ∃ t, set_slice s sl (goods.map .ok ++ .bad :: rest) = .error (.typeError, t) ∧
      content t = (content s).take startN ++ goods ++ (content s).drop stopN ∧
      WF t := by
  obtain ⟨s3, e0, e1, e2, e3, e4, e5⟩ :=
    set_slice_step1 s hWF sl startN stopN hidx hss hstop (goods.map .ok ++ .bad :: rest)
  simp only [List.length_append, List.length_map, List.length_cons] at e2
  obtain ⟨t, f0, f1, f2⟩ := writeLoop_bad goods rest s3 e3 (by omega)
  refine ⟨t, ?_, ?_, f2⟩
  · rw [e0, f0]
  · rw [f1, e4, e5]

/-! ### Claim C1: step-1 slice assignment replaces the addressed range -/

/-- Claim C1: for every well-formed buffer state with logical content `c`,
every step-1 slice whose normalized bounds satisfy
`0 ≤ start ≤ stop ≤ length c`, and every sequence of well-typed values,
the slice assignment succeeds and the logical content becomes
`c[0:start] ++ values ++ c[stop:]`, for any prior gap position and however
many internal gap or storage resizes occur. -/
theorem C1_step1_slice_assignment (s : GapState α) (hWF : WF s) (sl : PySlice)
    (startN stopN : Nat)
    (hidx : sliceIndices sl (gbLength s) = ((startN : Int), (stopN : Int), 1))
    (hss : startN ≤ stopN) (hstop : stopN ≤ gbLength s) (vals : List α) :
    ∃ t, set_slice s sl (vals.map .ok) = .ok t ∧
      content t = (content s).take startN ++ vals ++ (content s).drop stopN ∧
      WF t :=
  set_slice_step1_ok s hWF sl startN stopN hidx hss hstop vals

theorem C1_witness :
    ∃ t, set_slice (init (0 : Int) [1, 2, 3] 2) ⟨some 1, some 2, none⟩
        ([9, 9, 9].map .ok) = .ok t ∧
      content t = (content (init (0 : Int) [1, 2, 3] 2)).take 1 ++ [9, 9, 9] ++
        (content (init (0 : Int) [1, 2, 3] 2)).drop 2 ∧
      WF t :=
  C1_step1_slice_assignment (init (0 : Int) [1, 2, 3] 2) (by decide)
    ⟨some 1, some 2, none⟩ 1 2 (by decide) (by decide) (by decide) [9, 9, 9]

/-! ### Claim C10: insert clamps its index instead of raising -/

theorem clampN_le (i : Int) (n : Nat) : clampN i n ≤ n := by
  unfold clampN
  rcases lt_or_ge i 0 with h | h
  · rw [if_pos h, Int.max_def]
    split_ifs <;> omega
  · rw [if_neg (not_lt.mpr h), Int.min_def]
    split_ifs <;> omega

theorem sliceIndices_insert (i : Int) (n : Nat) :
    sliceIndices ⟨some i, some i, none⟩ n =
      ((clampN i n : Int), (clampN i n : Int), 1) := by
  unfold sliceIndices clampN
  simp only [Option.getD]
  have h1 : ¬ ((1 : Int) < 0) := by omega
  rw [if_neg h1, if_neg h1]
  rcases lt_or_ge i 0 with h | h
  · rw [if_pos h, Int.toNat_of_nonneg (le_max_right _ _)]
  · rw [if_neg (not_lt.mpr h), Int.toNat_of_nonneg (le_min h (by omega))]

/-- Claim C10: `insert(index, item)` never raises an index error — the
position is clamped by slice normalization into `[0, length]`, so a large
index appends and a very negative index prepends — while index get, set and
delete raise an index error outside `[-length, length)`. -/
theorem C10_insert_clamps (s : GapState α) (hWF : WF s) (i : Int) (item : α) :
    (∃ t, insert s i (.ok item) = .ok t ∧
      content t = (content s).take (clampN i (gbLength s)) ++ [item] ++
        (content s).drop (clampN i (gbLength s)) ∧
      WF t) ∧
    (((gbLength s : Int) ≤ i ∨ i < -(gbLength s : Int)) →
      get_index s i = .error .indexError ∧
      set_index s i (.ok item) = .error (.indexError, s) ∧
      del_index s i = .error (.indexError, s)) := by
  constructor
  · have h := set_slice_step1_ok s hWF ⟨some i, some i, none⟩
      (clampN i (gbLength s)) (clampN i (gbLength s))
      (sliceIndices_insert i (gbLength s)) (le_refl _) (clampN_le i (gbLength s)) [item]
    exact h
  · intro h
    refine ⟨?_, ?_, ?_⟩
    · unfold get_index
      rw [if_pos h]
    · unfold set_index
      rw [if_pos h]
    · unfold del_index
      rw [if_pos h]

theorem C10_witness :
    (∃ t, insert (init (0 : Int) [0, 1, 2] 2) 100 (.ok 9) = .ok t ∧
      content t = (content (init (0 : Int) [0, 1, 2] 2)).take (clampN 100 3) ++ [9] ++
        (content (init (0 : Int) [0, 1, 2] 2)).drop (clampN 100 3) ∧
      WF t) ∧
    (((3 : Int) ≤ 100 ∨ (100 : Int) < -3) →
      get_index (init (0 : Int) [0, 1, 2] 2) 100 = .error .indexError ∧
      set_index (init (0 : Int) [0, 1, 2] 2) 100 (.ok 9) =
        .error (.indexError, init (0 : Int) [0, 1, 2] 2) ∧
      del_index (init (0 : Int) [0, 1, 2] 2) 100 =
        .error (.indexError, init (0 : Int) [0, 1, 2] 2)) :=
  C10_insert_clamps (init (0 : Int) [0, 1, 2] 2) (by decide) 100 9

/-! ### Claim C7: type errors and partial mutation -/

/-- Claim C7 is falsified by the code: assigning `[9, bad]` to `b[1:3]` of
`[0,1,2,3,4]` raises the type error only after deleting the old slice and
writing the well-typed prefix, leaving content `[0,9,3,4]` instead of the
original `[0,1,2,3,4]`. -/
theorem C7_counterexample :
    errContent (set_slice (init (0 : Int) [0, 1, 2, 3, 4] 2)
        ⟨some 1, some 3, none⟩ [.ok 9, .bad]) = some (.typeError, [0, 9, 3, 4]) ∧
    content (init (0 : Int) [0, 1, 2, 3, 4] 2) = [0, 1, 2, 3, 4] ∧
    ([0, 9, 3, 4] : List Int) ≠ [0, 1, 2, 3, 4] := by
  refine ⟨by decide, by decide, by decide⟩

theorem goodPrefix_append_bad (goods : List α) (rest : List (PyVal α)) :
    goodPrefix (goods.map .ok ++ .bad :: rest) = (goods, true) := by
  induction goods with
  | nil => rfl
  | cons a goods ih => simp [goodPrefix, ih]

/-- Claim C7 (amended): a wrongly-typed value makes construction abort with
a type error producing no object, and makes an index set fail with the
state unchanged; but a step-1 slice assignment whose value sequence has a
wrongly-typed element preceded by well-typed ones raises only after
deleting the old slice and writing that well-typed prefix, so the buffer is
left partially mutated: `c[0:start] ++ goods ++ c[stop:]`. -/
theorem C7_type_error_mutation :
    (∀ (fill : α) (g : Nat) (goods : List α) (rest : List (PyVal α)),
      initBuf fill (goods.map .ok ++ .bad :: rest) g = .error .typeError) ∧
    (∀ (s : GapState α) (i : Int), ∃ e, set_index s i .bad = .error (e, s)) ∧
    (∀ (s : GapState α), WF s → ∀ (sl : PySlice) (startN stopN : Nat),
      sliceIndices sl (gbLength s) = ((startN : Int), (stopN : Int), 1) →
      startN ≤ stopN → stopN ≤ gbLength s →
      ∀ (goods : List α) (rest : List (PyVal α)),
      ∃ t, set_slice s sl (goods.map .ok ++ .bad :: rest) = .error (.typeError, t) ∧
        content t = (content s).take startN ++ goods ++ (content s).drop stopN ∧
        WF t) := by
  refine ⟨?_, ?_, ?_⟩
  · intro fill g goods rest
    unfold initBuf
    rw [goodPrefix_append_bad]
  · intro s i
    unfold set_index
    by_cases h : (gbLength s : Int) ≤ i ∨ i < -(gbLength s : Int)
    · rw [if_pos h]
      exact ⟨.indexError, rfl⟩
    · rw [if_neg h]
      exact ⟨.typeError, rfl⟩
  · intro s hWF sl startN stopN hidx hss hstop goods rest
    exact set_slice_step1_bad s hWF sl startN stopN hidx hss hstop goods rest

theorem C7_witness :
    (initBuf (0 : Int) ([9].map .ok ++ .bad :: []) 2 = .error .typeError) ∧
    (∃ e, set_index (init (0 : Int) [0, 1, 2, 3, 4] 2) 0 .bad =
      .error (e, init (0 : Int) [0, 1, 2, 3, 4] 2)) ∧
    (∃ t, set_slice (init (0 : Int) [0, 1, 2, 3, 4] 2) ⟨some 1, some 3, none⟩
        ([9].map .ok ++ .bad :: []) = .error (.typeError, t) ∧
      content t = (content (init (0 : Int) [0, 1, 2, 3, 4] 2)).take 1 ++ [9] ++
        (content (init (0 : Int) [0, 1, 2, 3, 4] 2)).drop 3 ∧
      WF t) :=
  ⟨C7_type_error_mutation.1 0 2 [9] [],
   C7_type_error_mutation.2.1 (init (0 : Int) [0, 1, 2, 3, 4] 2) 0,
   C7_type_error_mutation.2.2 (init (0 : Int) [0, 1, 2, 3, 4] 2) (by decide)
     ⟨some 1, some 3, none⟩ 1 3 (by decide) (by decide) (by decide) [9] []⟩

/-! ### Index set: logical effect and the extended-slice assignment loop -/

theorem set_index_ok (s : GapState α) (hWF : WF s) (i : Int) (h0 : 0 ≤ i)
    (hlt : i < (gbLength s : Int)) (a : α) :
    ∃ t, set_index s i (.ok a) = .ok t ∧
      content t = (content s).set i.toNat a ∧
      WF t ∧ gbLength t = gbLength s := by
  obtain ⟨h1, h2, h3⟩ := hWF
  have hlen : gbLength s = s.content_end - (s.gap_end - s.gap_start) := rfl
  have hiN : i = (i.toNat : Int) := (Int.toNat_of_nonneg h0).symm
  set iN := i.toNat with hiNdef
  have hilen : iN < gbLength s := by omega
  unfold set_index
  rw [if_neg (by omega)]
  simp only []
  by_cases hc : i < (s.gap_start : Int)
  · rw [if_pos hc]
    have hgs : iN < s.gap_start := by omega
    have hpy : pyIdx s.buf i = iN := by
      unfold pyIdx
      rw [if_neg (by omega)]
    rw [hpy]
    refine ⟨_, rfl, ?_, ?_, rfl⟩
    · unfold content
      simp only
      rw [List.set_take, List.set_take, List.drop_set, if_pos (by omega)]
      rw [List.set_append_left _ _ (by simp only [List.length_take]; omega)]
    · refine ⟨?_, ?_, ?_⟩ <;> simp only [List.length_set] <;> omega
  · rw [if_neg hc]
    have hgs : s.gap_start ≤ iN := by omega
    have hgl3 : gapLen s = s.gap_end - s.gap_start := rfl
    have hp : pyIdx s.buf (i + (gapLen s : Int)) = iN + (s.gap_end - s.gap_start) := by
      unfold pyIdx
      rw [hgl3, if_neg (by omega)]
      omega
    rw [hp]
    set p := iN + (s.gap_end - s.gap_start) with hpdef
    have hpge : s.gap_end ≤ p := by omega
    have hpce : p < s.content_end := by
      simp only [gbLength, gapLen] at hilen
      omega
    refine ⟨_, rfl, ?_, ?_, rfl⟩
    · unfold content
      simp only
      rw [List.set_take, List.set_eq_of_length_le (by simp only [List.length_take]; omega)]
      rw [List.set_take, List.drop_set, if_neg (by omega)]
      rw [List.set_append_right _ _ (by simp only [List.length_take]; omega)]
      have hidx2 : iN - (List.take s.gap_start s.buf).length = p - s.gap_end := by
        rw [List.length_take]
        omega
      rw [hidx2]
    · refine ⟨?_, ?_, ?_⟩ <;> simp only [List.length_set] <;> omega

theorem applyWrites_length (is : List Nat) :
    ∀ (vs l : List α), (applyWrites l is vs).length = l.length := by
  induction is with
  | nil => intro vs l; simp [applyWrites]
  | cons i is ih =>
    intro vs l
    cases vs with
    | nil => rfl
    | cons v vs => rw [show applyWrites l (i :: is) (v :: vs) =
        applyWrites (l.set i v) is vs from rfl, ih, List.length_set]

theorem applyWrites_not_mem (is : List Nat) :
    ∀ (vs l : List α) (j : Nat), j ∉ is →
      (applyWrites l is vs)[j]? = l[j]? := by
  induction is with
  | nil => intro vs l j _; simp [applyWrites]
  | cons i is ih =>
    intro vs l j hj
    cases vs with
    | nil => rfl
    | cons v vs =>
      rw [show applyWrites l (i :: is) (v :: vs) = applyWrites (l.set i v) is vs from rfl]
      rw [ih vs _ j (by intro hmem; exact hj (List.mem_cons_of_mem _ hmem))]
      exact List.getElem?_set_ne (by intro he; exact hj (he ▸ List.mem_cons_self i is))

theorem applyWrites_addressed (is : List Nat) :
    ∀ (vs l : List α), is.Nodup → is.length = vs.length →
      ∀ (k : Nat) (hk : k < is.length),
        is.get ⟨k, hk⟩ < l.length →
        (applyWrites l is vs)[is.get ⟨k, hk⟩]? = vs[k]? := by
  induction is with
  | nil => intro vs l _ _ k hk; exact absurd hk (by simp)
  | cons i is ih =>
    intro vs l hnd hlen k hk hbound
    cases vs with
    | nil => simp at hlen
    | cons v vs =>
      rw [show applyWrites l (i :: is) (v :: vs) = applyWrites (l.set i v) is vs from rfl]
      match k with
      | 0 =>
        simp only [List.get] at hbound ⊢
        rw [applyWrites_not_mem is vs _ i (List.nodup_cons.mp hnd).1]
        rw [List.getElem?_set_self hbound]
        simp
      | k + 1 =>
        simp only [List.get] at hbound ⊢
        have := ih vs (l.set i v) (List.nodup_cons.mp hnd).2
          (by simpa using hlen) k (by simpa using hk)
          (by rw [List.length_set]; exact hbound)
        simpa using this

theorem setEach_ok (idxs : List Int) :
    ∀ (vals : List α) (s : GapState α), WF s →
    (∀ i ∈ idxs, 0 ≤ i ∧ i < (gbLength s : Int)) → idxs.length = vals.length →
    ∃ t, setEach s (idxs.zip (vals.map .ok)) = .ok t ∧
      content t = applyWrites (content s) (idxs.map Int.toNat) vals ∧
      WF t ∧ gbLength t = gbLength s := by
  induction idxs with
  | nil =>
    intro vals s hWF _ _
    exact ⟨s, rfl, by simp [applyWrites], hWF, rfl⟩
  | cons i idxs ih =>
    intro vals s hWF hmem hlen
    cases vals with
    | nil => simp at hlen
    | cons v vals =>
      obtain ⟨hi0, hilt⟩ := hmem i (List.mem_cons_self i idxs)
      obtain ⟨t1, e0, e1, e2, e3⟩ := set_index_ok s hWF i hi0 hilt v
      have hzip : (i :: idxs).zip ((v :: vals).map .ok) =
          (i, PyVal.ok v) :: idxs.zip (vals.map .ok) := rfl
      rw [hzip]
      have hstep : setEach s ((i, PyVal.ok v) :: idxs.zip (vals.map .ok)) =
          setEach t1 (idxs.zip (vals.map .ok)) := by
        show (match set_index s i (PyVal.ok v) with
          | .ok s1 => setEach s1 (idxs.zip (vals.map .ok))
          | .error e => .error e) = _
        rw [e0]
      obtain ⟨t, f0, f1, f2, f3⟩ := ih vals t1 e2
        (by intro j hj; rw [e3]; exact hmem j (List.mem_cons_of_mem _ hj))
        (by simpa using hlen)
      refine ⟨t, by rw [hstep, f0], ?_, f2, by rw [f3, e3]⟩
      rw [f1, e1]
      rfl

/-! ### Facts about `xrange(start, stop, step)` -/

theorem rangeGo_length (step : Int) : ∀ (n : Nat) (start : Int),
    (rangeGo start step n).length = n := by
  intro n
  induction n with
  | zero => intro start; rfl
  | succ n ih => intro start; simp [rangeGo, ih]

theorem rangeList_length (start stop step : Int) :
    (rangeList start stop step).length = rangeLen start stop step :=
  rangeGo_length step _ start

theorem rangeLen_pos_succ (start stop step : Int) (hstep : 0 < step)
    (hlt : start < stop) :
    rangeLen start stop step = rangeLen (start + step) stop step + 1 := by
  unfold rangeLen
  rw [if_pos hstep, if_pos hlt, if_pos hstep]
  by_cases h2 : start + step < stop
  · rw [if_pos h2]
    have key : (stop - start - 1) / step = (stop - (start + step) - 1) / step + 1 := by
      have harr : stop - start - 1 = (stop - (start + step) - 1) + 1 * step := by ring
      rw [harr, Int.add_mul_ediv_right _ _ (by omega)]
    have hnn : 0 ≤ (stop - (start + step) - 1) / step :=
      Int.ediv_nonneg (by omega) (by omega)
    rw [key]
    omega
  · rw [if_neg h2]
    have hz : (stop - start - 1) / step = 0 := Int.ediv_eq_zero_of_lt (by omega) (by omega)
    rw [hz]
    rfl

theorem rangeLen_neg_succ (start stop step : Int) (hstep : step < 0)
    (hlt : stop < start) :
    rangeLen start stop step = rangeLen (start + step) stop step + 1 := by
  unfold rangeLen
  rw [if_neg (by omega), if_pos hstep, if_pos hlt, if_neg (by omega), if_pos hstep]
  by_cases h2 : stop < start + step
  · rw [if_pos h2]
    have key : (start - stop - 1) / (-step) =
        (start + step - stop - 1) / (-step) + 1 := by
      have harr : start - stop - 1 = (start + step - stop - 1) + 1 * (-step) := by ring
      rw [harr, Int.add_mul_ediv_right _ _ (by omega)]
    have hnn : 0 ≤ (start + step - stop - 1) / (-step) :=
      Int.ediv_nonneg (by omega) (by omega)
    rw [key]
    omega
  · rw [if_neg h2]
    have hz : (start - stop - 1) / (-step) = 0 := Int.ediv_eq_zero_of_lt (by omega) (by omega)
    rw [hz]
    rfl

theorem rangeList_cons_pos (start stop step : Int) (hstep : 0 < step)
    (hlt : start < stop) :
    rangeList start stop step = start :: rangeList (start + step) stop step := by
  unfold rangeList
  rw [rangeLen_pos_succ start stop step hstep hlt]
  rfl

theorem rangeList_cons_neg (start stop step : Int) (hstep : step < 0)
    (hlt : stop < start) :
    rangeList start stop step = start :: rangeList (start + step) stop step := by
  unfold rangeList
  rw [rangeLen_neg_succ start stop step hstep hlt]
  rfl

theorem rangeList_mem_pos (step : Int) (hstep : 0 < step) (stop : Int) :
    ∀ (n : Nat) (start : Int), rangeLen start stop step = n →
      ∀ x ∈ rangeList start stop step, start ≤ x ∧ x < stop := by
  intro n
  induction n with
  | zero =>
    intro start hn x hx
    unfold rangeList at hx
    rw [hn] at hx
    exact absurd hx (List.not_mem_nil x)
  | succ n ih =>
    intro start hn x hx
    by_cases hlt : start < stop
    · rw [rangeList_cons_pos start stop step hstep hlt] at hx
      rcases List.mem_cons.mp hx with rfl | hx2
      · exact ⟨le_refl x, hlt⟩
      · have hn2 : rangeLen (start + step) stop step = n := by
          have := rangeLen_pos_succ start stop step hstep hlt
          omega
        obtain ⟨ha, hb⟩ := ih (start + step) hn2 x hx2
        exact ⟨by omega, hb⟩
    · exfalso
      unfold rangeLen at hn
      rw [if_pos hstep, if_neg hlt] at hn
      omega

theorem rangeList_mem_neg (step : Int) (hstep : step < 0) (stop : Int) :
    ∀ (n : Nat) (start : Int), rangeLen start stop step = n →
      ∀ x ∈ rangeList start stop step, stop < x ∧ x ≤ start := by
  intro n
  induction n with
  | zero =>
    intro start hn x hx
    unfold rangeList at hx
    rw [hn] at hx
    exact absurd hx (List.not_mem_nil x)
  | succ n ih =>
    intro start hn x hx
    by_cases hlt : stop < start
    · rw [rangeList_cons_neg start stop step hstep hlt] at hx
      rcases List.mem_cons.mp hx with rfl | hx2
      · exact ⟨hlt, le_refl x⟩
      · have hn2 : rangeLen (start + step) stop step = n := by
          have := rangeLen_neg_succ start stop step hstep hlt
          omega
        obtain ⟨ha, hb⟩ := ih (start + step) hn2 x hx2
        exact ⟨ha, by omega⟩
    · exfalso
      unfold rangeLen at hn
      rw [if_neg (by omega), if_pos hstep, if_neg hlt] at hn
      omega

theorem rangeList_nodup (start stop step : Int) (hstep : step ≠ 0) :
    (rangeList start stop step).Nodup := by
  rcases lt_or_gt_of_ne hstep with hneg | hpos
  · generalize hn : rangeLen start stop step = n
    induction n generalizing start with
    | zero =>
      unfold rangeList
      rw [hn]
      exact List.nodup_nil
    | succ n ih =>
      by_cases hlt : stop < start
      · rw [rangeList_cons_neg start stop step hneg hlt]
        refine List.nodup_cons.mpr ⟨?_, ?_⟩
        · intro hmem
          have := (rangeList_mem_neg step hneg stop
            (rangeLen (start + step) stop step) (start + step) rfl start hmem).2
          omega
        · exact ih (start + step)
            (by have := rangeLen_neg_succ start stop step hneg hlt; omega)
      · unfold rangeList rangeLen
        rw [if_neg (by omega), if_pos hneg, if_neg hlt]
        exact List.nodup_nil
  · generalize hn : rangeLen start stop step = n
    induction n generalizing start with
    | zero =>
      unfold rangeList
      rw [hn]
      exact List.nodup_nil
    | succ n ih =>
      by_cases hlt : start < stop
      · rw [rangeList_cons_pos start stop step hpos hlt]
        refine List.nodup_cons.mpr ⟨?_, ?_⟩
        · intro hmem
          have := (rangeList_mem_pos step hpos stop
            (rangeLen (start + step) stop step) (start + step) rfl start hmem).1
          omega
        · exact ih (start + step)
            (by have := rangeLen_pos_succ start stop step hpos hlt; omega)
      · unfold rangeList rangeLen
        rw [if_pos hpos, if_neg hlt]
        exact List.nodup_nil

theorem sliceIndices_bounds (st sp se : Option Int) (n : Nat) :
    (0 < (sliceIndices ⟨st, sp, se⟩ n).2.2 →
      0 ≤ (sliceIndices ⟨st, sp, se⟩ n).1 ∧ (sliceIndices ⟨st, sp, se⟩ n).1 ≤ (n : Int) ∧
      0 ≤ (sliceIndices ⟨st, sp, se⟩ n).2.1 ∧
      (sliceIndices ⟨st, sp, se⟩ n).2.1 ≤ (n : Int)) ∧
    ((sliceIndices ⟨st, sp, se⟩ n).2.2 < 0 →
      -1 ≤ (sliceIndices ⟨st, sp, se⟩ n).1 ∧
      (sliceIndices ⟨st, sp, se⟩ n).1 ≤ (n : Int) - 1 ∧
      -1 ≤ (sliceIndices ⟨st, sp, se⟩ n).2.1 ∧
      (sliceIndices ⟨st, sp, se⟩ n).2.1 ≤ (n : Int) - 1) := by
  unfold sliceIndices
  simp only []
  constructor <;> intro hsign
  · rw [if_neg (by omega), if_neg (by omega)]
    cases st <;> cases sp <;> simp only [] <;>
      refine ⟨?_, ?_, ?_, ?_⟩ <;> first | (split_ifs <;> omega) | omega
  · rw [if_pos hsign, if_pos hsign]
    cases st <;> cases sp <;> simp only [] <;>
      refine ⟨?_, ?_, ?_, ?_⟩ <;> first | (split_ifs <;> omega) | omega

/-! ### Claim C4: extended-slice assignment -/

/-- Claim C4: for an extended slice (normalized step not 0 or 1) with
addressed index list `xr`, assigning a sequence of the wrong length fails
with a length error leaving the buffer unchanged, and assigning a sequence
of matching length sets exactly the addressed indices to the corresponding
values, leaving every other position unchanged. -/
theorem C4_extended_slice_assignment (s : GapState α) (hWF : WF s) (sl : PySlice)
    (stp : Int) (hstp : (sliceIndices sl (gbLength s)).2.2 = stp)
    (h0 : stp ≠ 0) (h1 : stp ≠ 1) (xr : List Int)
    (hxr : xr = rangeList (sliceIndices sl (gbLength s)).1
      (sliceIndices sl (gbLength s)).2.1 stp) :
    (∀ values : List (PyVal α), values.length ≠ xr.length →
      set_slice s sl values = .error (.valueError, s)) ∧
    (∀ vals : List α, vals.length = xr.length →
      ∃ t, set_slice s sl (vals.map .ok) = .ok t ∧ WF t ∧
        (content t).length = (content s).length ∧
        (∀ (k : Nat) (hk : k < xr.length) (hk2 : k < vals.length),
          (content t)[(xr.get ⟨k, hk⟩).toNat]? = some (vals.get ⟨k, hk2⟩)) ∧
        (∀ j : Nat, (j : Int) ∉ xr → (content t)[j]? = (content s)[j]?)) := by
  obtain ⟨st, sp, se⟩ := sl
  have hbr : ∀ values : List (PyVal α), set_slice s ⟨st, sp, se⟩ values =
      if values.length ≠ xr.length then .error (.valueError, s)
      else setEach s (xr.zip values) := by
    intro values
    unfold set_slice
    simp only []
    rw [hstp, if_pos h1, ← hxr]
  have hmem : ∀ x ∈ xr, 0 ≤ x ∧ x < (gbLength s : Int) := by
    rcases lt_or_gt_of_ne h0 with hneg | hpos
    · intro x hx
      have hb := (sliceIndices_bounds st sp se (gbLength s)).2 (hstp ▸ hneg)
      have hm := rangeList_mem_neg stp hneg
        (sliceIndices ⟨st, sp, se⟩ (gbLength s)).2.1
        (rangeLen (sliceIndices ⟨st, sp, se⟩ (gbLength s)).1
          (sliceIndices ⟨st, sp, se⟩ (gbLength s)).2.1 stp)
        (sliceIndices ⟨st, sp, se⟩ (gbLength s)).1 rfl x (hxr ▸ hx)
      constructor <;> omega
    · intro x hx
      have hb := (sliceIndices_bounds st sp se (gbLength s)).1 (hstp ▸ hpos)
      have hm := rangeList_mem_pos stp hpos
        (sliceIndices ⟨st, sp, se⟩ (gbLength s)).2.1
        (rangeLen (sliceIndices ⟨st, sp, se⟩ (gbLength s)).1
          (sliceIndices ⟨st, sp, se⟩ (gbLength s)).2.1 stp)
        (sliceIndices ⟨st, sp, se⟩ (gbLength s)).1 rfl x (hxr ▸ hx)
      constructor <;> omega
  have hnd : xr.Nodup := hxr ▸ rangeList_nodup _ _ stp h0
  constructor
  · intro values hne
    rw [hbr values, if_pos hne]
  · intro vals hlen
    obtain ⟨t, f0, f1, f2, f3⟩ := setEach_ok xr vals s hWF hmem hlen.symm
    refine ⟨t, ?_, f2, ?_, ?_, ?_⟩
    · rw [hbr _, if_neg (by simp only [List.length_map, ne_eq, not_not]; exact hlen)]
      exact f0
    · rw [f1, applyWrites_length]
    · intro k hk hk2
      rw [f1]
      have hk3 : k < (xr.map Int.toNat).length := by
        simp only [List.length_map]
        exact hk
      have hmap : (xr.map Int.toNat).get ⟨k, hk3⟩ = (xr.get ⟨k, hk⟩).toNat := by
        simp only [List.get_eq_getElem, List.getElem_map]
      have hnd2 : (xr.map Int.toNat).Nodup :=
        List.Nodup.map_on
          (by
            intro x hx y hy he
            have hx2 := hmem x hx
            have hy2 := hmem y hy
            omega) hnd
      have hlen2 : (xr.map Int.toNat).length = vals.length := by
        simp only [List.length_map]
        omega
      have hbound : (xr.map Int.toNat).get ⟨k, hk3⟩ < (content s).length := by
        rw [hmap, content_length s hWF]
        have := hmem (xr.get ⟨k, hk⟩) (List.get_mem xr k hk)
        omega
      have hw := applyWrites_addressed (xr.map Int.toNat) vals (content s)
        hnd2 hlen2 k hk3 hbound
      rw [hmap] at hw
      rw [hw, List.getElem?_eq_getElem hk2]
      rw [List.get_eq_getElem]
    · intro j hj
      rw [f1]
      apply applyWrites_not_mem
      intro hmem2
      obtain ⟨x, hx, hxe⟩ := List.mem_map.mp hmem2
      have hx0 := (hmem x hx).1
      have hxj : x = (j : Int) := by omega
      exact hj (hxj ▸ hx)

theorem C4_witness :
    (∀ values : List (PyVal Int),
      values.length ≠ ([0, 2, 4] : List Int).length →
      set_slice (init (0 : Int) [0, 1, 2, 3, 4] 2) ⟨none, none, some 2⟩ values =
        .error (.valueError, init (0 : Int) [0, 1, 2, 3, 4] 2)) ∧
    (∀ vals : List Int, vals.length = ([0, 2, 4] : List Int).length →
      ∃ t, set_slice (init (0 : Int) [0, 1, 2, 3, 4] 2) ⟨none, none, some 2⟩
          (vals.map .ok) = .ok t ∧ WF t ∧
        (content t).length = (content (init (0 : Int) [0, 1, 2, 3, 4] 2)).length ∧
        (∀ (k : Nat) (hk : k < ([0, 2, 4] : List Int).length) (hk2 : k < vals.length),
          (content t)[(([0, 2, 4] : List Int).get ⟨k, hk⟩).toNat]? =
            some (vals.get ⟨k, hk2⟩)) ∧
        (∀ j : Nat, (j : Int) ∉ ([0, 2, 4] : List Int) →
          (content t)[j]? = (content (init (0 : Int) [0, 1, 2, 3, 4] 2))[j]?)) :=
  C4_extended_slice_assignment (init (0 : Int) [0, 1, 2, 3, 4] 2) (by decide)
    ⟨none, none, some 2⟩ 2 (by decide) (by decide) (by decide) [0, 2, 4] (by decide)

/-! ### Claim C8: lexicographic comparison -/

theorem pyCompare_self [LinearOrder α] (l : List α) : pyCompare l l = 0 := by
  induction l with
  | nil => rfl
  | cons a l ih =>
    unfold pyCompare
    rw [if_neg (lt_irrefl a), if_neg (lt_irrefl a)]
    exact ih

theorem pyCompare_self_append [LinearOrder α] (l d : List α) (hd : d ≠ []) :
    pyCompare l (l ++ d) = -1 := by
  induction l with
  | nil =>
    cases d with
    | nil => exact absurd rfl hd
    | cons e d => rfl
  | cons a l ih =>
    rw [List.cons_append]
    unfold pyCompare
    rw [if_neg (lt_irrefl a), if_neg (lt_irrefl a)]
    exact ih

theorem pyCompare_append_self [LinearOrder α] (l d : List α) (hd : d ≠ []) :
    pyCompare (l ++ d) l = 1 := by
  induction l with
  | nil =>
    cases d with
    | nil => exact absurd rfl hd
    | cons e d => rfl
  | cons a l ih =>
    rw [List.cons_append]
    unfold pyCompare
    rw [if_neg (lt_irrefl a), if_neg (lt_irrefl a)]
    exact ih

theorem pyCompare_diff [LinearOrder α] (c : List α) (a b : α) (x y : List α)
    (hab : a ≠ b) :
    pyCompare (c ++ a :: x) (c ++ b :: y) = if a < b then -1 else 1 := by
  induction c with
  | nil =>
    simp only [List.nil_append]
    unfold pyCompare
    by_cases h : a < b
    · rw [if_pos h, if_pos h]
    · rw [if_neg h, if_neg h,
        if_pos (lt_of_le_of_ne (not_lt.mp h) (Ne.symm hab))]
  | cons e c ih =>
    rw [List.cons_append, List.cons_append]
    unfold pyCompare
    rw [if_neg (lt_irrefl e), if_neg (lt_irrefl e)]
    exact ih

/-- Claim C8: comparing a buffer against an object exposing no length
always yields "greater" (and equality with it is false) without consuming
it; against a sized iterable the comparison is positional — the first
differing pair decides, a strict prefix is smaller, and equal sequences
compare equal. -/
theorem C8_comparison [LinearOrder α] :
    (∀ (s : GapState α), gb_compare s .unsized = 1 ∧ gb_eq s .unsized = false) ∧
    (∀ (fill : α) (g : Nat) (c x y : List α) (a b : α), a ≠ b →
      gb_compare (init fill (c ++ a :: x) g) (.sized (c ++ b :: y)) =
        if a < b then -1 else 1) ∧
    (∀ (fill : α) (g : Nat) (l d : List α), d ≠ [] →
      gb_compare (init fill l g) (.sized (l ++ d)) = -1 ∧
      gb_compare (init fill (l ++ d) g) (.sized l) = 1) ∧
    (∀ (fill : α) (g : Nat) (l : List α), gb_compare (init fill l g) (.sized l) = 0) := by
  refine ⟨fun s => ⟨rfl, rfl⟩, ?_, ?_, ?_⟩
  · intro fill g c x y a b hab
    show pyCompare (content (init fill (c ++ a :: x) g)) (c ++ b :: y) = _
    rw [content_init]
    exact pyCompare_diff c a b x y hab
  · intro fill g l d hd
    constructor
    · show pyCompare (content (init fill l g)) (l ++ d) = -1
      rw [content_init]
      exact pyCompare_self_append l d hd
    · show pyCompare (content (init fill (l ++ d) g)) l = 1
      rw [content_init]
      exact pyCompare_append_self l d hd
  · intro fill g l
    show pyCompare (content (init fill l g)) l = 0
    rw [content_init]
    exact pyCompare_self l

theorem C8_witness :
    (gb_compare (init (0 : Int) [1, 2] 2) .unsized = 1 ∧
      gb_eq (init (0 : Int) [1, 2] 2) .unsized = false) ∧
    (gb_compare (init (0 : Int) ([1] ++ 2 :: [5]) 2) (.sized ([1] ++ 3 :: [0])) =
      if (2 : Int) < 3 then -1 else 1) ∧
    (gb_compare (init (0 : Int) [1, 2] 2) (.sized ([1, 2] ++ [9])) = -1 ∧
      gb_compare (init (0 : Int) ([1, 2] ++ [9]) 2) (.sized [1, 2]) = 1) ∧
    (gb_compare (init (0 : Int) [4, 5, 6] 2) (.sized [4, 5, 6]) = 0) :=
  ⟨C8_comparison.1 (init (0 : Int) [1, 2] 2),
   C8_comparison.2.1 0 2 [1] [5] [0] 2 3 (by decide),
   C8_comparison.2.2.1 0 2 [1, 2] [9] (by decide),
   C8_comparison.2.2.2 0 2 [4, 5, 6]⟩

/-! ### Claims refuted by evaluating the code -/

/-- Projection of an index-read result onto the returned element. -/
def getOk : Except Err α → Option α
  | .ok a => some a
  | .error _ => none

/-- Claim C2 fails on the code: starting from `gapbuffer('i', [0,1,2,3,4],
gap_size=2)`, the public slice assignment `b[5:0] = []` (legal in Python;
`slice(5, 0).indices(5) = (5, 0, 1)`) moves the gap to 5 and then adds
`stop - start = -5` to `gap_end`, leaving `gap_start = 5 > gap_end = 2`,
which violates the claimed ordering invariant. -/
theorem C2_ordering_violated :
    (okState (set_slice (init (0 : Int) [0, 1, 2, 3, 4] 2)
        ⟨some 5, some 0, none⟩ [])).map (fun t => (t.gap_start, t.gap_end)) =
      some (5, 2) ∧ ¬ (5 : Nat) ≤ 2 := by
  constructor <;> decide

/-- Claim C3 fails on the code: after `b = gapbuffer('i', [5,6,7],
gap_size=3); b.extend([])` the gap sits at the physical end, and the
negative read `b[-1]` passes `-1` straight to the backing array, returning
the gap slot (the fill value 0) instead of `b[2] = 7`. -/
theorem C3_negative_index_mismatch :
    (okState (extendOp (init (0 : Int) [5, 6, 7] 3) [])).map
        (fun t => (content t, getOk (get_index t (-1)), getOk (get_index t 2))) =
      some ([5, 6, 7], some 0, some 7) := by
  decide

/-- Claim C5 fails on the code: `del b[::-2]` on `[0,1,2,3,4]` iterates the
addressed indices `[4, 2, 0]` from highest to lowest while compensating as
if they were ascending, deleting logical indices 4, then 1, then 1 again,
and leaves `[0, 3]` instead of `[1, 3]` (the result of removing exactly the
addressed indices 0, 2, 4). -/
theorem C5_negative_step_delete_wrong :
    (okState (del_slice (init (0 : Int) [0, 1, 2, 3, 4] 3)
        ⟨none, none, some (-2)⟩)).map content = some [0, 3] ∧
    ([0, 3] : List Int) ≠ [1, 3] := by
  constructor <;> decide

/-- Claim C6 fails on the code: `__imul__(n)` runs `self.extend(self)`
`n - 1` times, doubling the buffer each time, so `b *= 3` on content `[1]`
leaves `2^2 = 4` copies while `b * 3` builds 3 copies. -/
theorem C6_imul_mismatch :
    (okState (imul (init (1 : Int) [1] 1) 3)).map content = some [1, 1, 1, 1] ∧
    content (mul (init (1 : Int) [1] 1) 3) = [1, 1, 1] := by
  constructor <;> decide

/-- Claim C9 fails on the code: one iteration of the growth loop on a
capacity-16 store extends it by `max(1, int((1 + 1/16) * (1 + 16))) = 18`
slots — to capacity 34, not to roughly `(17/16) * 16 ≈ 17` (at most 18 with
the minimum increment) as claimed. -/
theorem C9_growth_step_overshoots :
    (resize_buf (init (0 : Int) [] 16) 17).buf.length = 34 ∧ ¬ (34 : Nat) ≤ 18 := by
  constructor
  · rw [resize_buf, dif_pos (by decide), resize_buf, dif_neg (by decide)]
    decide
  · decide

end GapBuffer
